import Mathlib

/-!
# Verification of the blackjack single-hand resolution engine

A shallow embedding of `BJ.py`: card/hand arithmetic (`hand_value`,
`is_blackjack`), the basic-strategy decision table
(`basic_strategy`), dealer resolution (`dealer_play`) and the
work-stack hand resolution engine (`play_hand_once`), together with
theorems settling the spec claims about them.

Modelling conventions:
* Python's global RNG is modelled as an explicit draw stream
  `draws : Nat → Rank` together with a cursor index: `draw_card()`
  becomes `draws i` followed by an increment of the cursor.
* Python floats for bets/payoffs are modelled as exact rationals
  (the engine only ever manipulates `1.0`, doublings, halves, `1.5`
  and `1.2`).
* The two unbounded `while` loops (the per-hand decision loop and
  the outer stack loop) are given an explicit fuel argument; running
  out of fuel yields `none`.  `dealer_play`'s loop terminates after
  at most 17 draws (each card adds at least 1 to the minimal total,
  and the loop only continues below a minimal total of 17), so it is
  defined by a fuel of 18 which is provably never exhausted.
* Python `Counter` trackers are modelled by the `Trackers` record;
  the two histogram counters record the multiset of written keys as
  a list (one appended key per Python `+= 1`).
* The engine additionally threads a ghost `trace : List Event` that
  records each strategy query and each hand passed to `dealer_play`.
  The trace is written but never read: it takes no part in control
  flow and exists so that frame/safety statements about the running
  engine (which hands are doubled, which dealer hand each comparison
  starts from) can be stated as theorems.
-/

/-- The 13 card ranks, `RANKS = [2,…,10,'J','Q','K','A']` in the source. -/
inductive Rank where
  | r2 | r3 | r4 | r5 | r6 | r7 | r8 | r9 | r10 | rJ | rQ | rK | rA
deriving DecidableEq, Repr

/-- The summand contributed by one card in `hand_value`:
`10 if c in ('J','Q','K') else (1 if c=='A' else c)`. -/
def baseValue : Rank → Nat
  | .r2 => 2 | .r3 => 3 | .r4 => 4 | .r5 => 5 | .r6 => 6 | .r7 => 7
  | .r8 => 8 | .r9 => 9 | .r10 => 10 | .rJ => 10 | .rQ => 10 | .rK => 10
  | .rA => 1

/-- `sum(10 if c in ('J','Q','K') else (1 if c=='A' else c) for c in cards)`. -/
def rawSum (cards : List Rank) : Nat := (cards.map baseValue).sum

/-- `cards.count('A')`. -/
def countAces (cards : List Rank) : Nat := cards.count Rank.rA

/-- The `while aces > 0 and total + 10 <= 21` promotion loop of
`hand_value`, recursing on the remaining ace count. -/
def promoteAces : Nat → Nat → Bool → Nat × Bool
  | 0, total, is_soft => (total, is_soft)
  | aces + 1, total, is_soft =>
    if total + 10 ≤ 21 then promoteAces aces (total + 10) true
    else (total, is_soft)

/-- `BlackjackAgent.hand_value`: base sum with Aces at 1, then promote
Aces to 11 one at a time while the total stays ≤ 21. -/
def hand_value (cards : List Rank) : Nat × Bool :=
  promoteAces (countAces cards) (rawSum cards) false

/-- `BlackjackAgent.is_blackjack`: exactly two cards totalling 21. -/
def is_blackjack (cards : List Rank) : Bool :=
  decide (cards.length = 2 ∧ (hand_value cards).1 = 21)

/-- Dealer upcard value for decision purposes:
`upv = 10 if up in ('J','Q','K') else (11 if up=='A' else up)`. -/
def upValue : Rank → Nat
  | .r2 => 2 | .r3 => 3 | .r4 => 4 | .r5 => 5 | .r6 => 6 | .r7 => 7
  | .r8 => 8 | .r9 => 9 | .r10 => 10 | .rJ => 10 | .rQ => 10 | .rK => 10
  | .rA => 11

/-- Pair value inside the split block:
`v = 11 if player[0]=='A' else (10 if player[0] in ('J','Q','K') else player[0])`. -/
def pairValue : Rank → Nat
  | .r2 => 2 | .r3 => 3 | .r4 => 4 | .r5 => 5 | .r6 => 6 | .r7 => 7
  | .r8 => 8 | .r9 => 9 | .r10 => 10 | .rJ => 10 | .rQ => 10 | .rK => 10
  | .rA => 11

/-- The hard-totals section of `BlackjackAgentBasic.strategy`
(reached when no earlier block returned; the final unconditional
`return 'S'` covers every total ≥ 17). -/
def hardTotals (total : Nat) (upv : Nat) (can_double : Bool) : Char :=
  if total ≤ 8 then 'H'
  else if total = 9 then
    if can_double = true ∧ (upv = 3 ∨ upv = 4 ∨ upv = 5 ∨ upv = 6) then 'D' else 'H'
  else if total = 10 then
    if can_double = true ∧ (2 ≤ upv ∧ upv < 10) then 'D' else 'H'
  else if total = 11 then
    if can_double = true then 'D' else 'H'
  else if total = 12 then
    if upv = 4 ∨ upv = 5 ∨ upv = 6 then 'S' else 'H'
  else if 13 ≤ total ∧ total ≤ 16 then
    if upv = 2 ∨ upv = 3 ∨ upv = 4 ∨ upv = 5 ∨ upv = 6 then 'S' else 'H'
  else 'S'

/-- The soft-totals section of `BlackjackAgentBasic.strategy`,
falling through to the hard-totals section when no soft case matches
(in particular soft 12 is decided by the hard-12 row, exactly as in
the source). -/
def softHard (total : Nat) (soft : Bool) (upv : Nat) (can_double : Bool) : Char :=
  if soft = true ∧ (total = 13 ∨ total = 14) then
    if can_double = true ∧ (upv = 5 ∨ upv = 6) then 'D' else 'H'
  else if soft = true ∧ (total = 15 ∨ total = 16) then
    if can_double = true ∧ (upv = 4 ∨ upv = 5 ∨ upv = 6) then 'D' else 'H'
  else if soft = true ∧ total = 17 then
    if can_double = true ∧ (upv = 3 ∨ upv = 4 ∨ upv = 5 ∨ upv = 6) then 'D'
    else if upv ≤ 8 then 'S' else 'H'
  else if soft = true ∧ total = 18 then
    if can_double = true ∧ (upv = 3 ∨ upv = 4 ∨ upv = 5 ∨ upv = 6) then 'D'
    else if upv = 2 ∨ upv = 7 ∨ upv = 8 then 'S' else 'H'
  else if soft = true ∧ 19 ≤ total then 'S'
  else hardTotals total upv can_double

/-- The pair-split block of `BlackjackAgentBasic.strategy` (entered
only when the pair guard held), keyed on the pair value `v`, with the
structurally-unreachable fall-through going to the soft/hard tables
just as in the source. -/
def pairBlock (v : Nat) (upv : Nat) (can_double : Bool) (total : Nat)
    (soft : Bool) : Char :=
  if v = 11 then 'P'
  else if v = 9 then
    if upv = 2 ∨ upv = 3 ∨ upv = 4 ∨ upv = 5 ∨ upv = 6 ∨ upv = 8 ∨ upv = 9
    then 'P' else 'S'
  else if v = 8 then 'P'
  else if v = 7 then (if 2 ≤ upv ∧ upv < 8 then 'P' else 'H')
  else if v = 6 then (if 2 ≤ upv ∧ upv < 7 then 'P' else 'H')
  else if v = 4 then (if upv = 5 ∨ upv = 6 then 'P' else 'H')
  else if v = 2 ∨ v = 3 then (if 2 ≤ upv ∧ upv < 8 then 'P' else 'H')
  else if v = 5 then
    if can_double = true ∧ (2 ≤ upv ∧ upv < 10) then 'D' else 'H'
  else if v = 10 then 'S'
  else softHard total soft upv can_double

/-- `BlackjackAgentBasic.strategy` (and the `basic_strategy`
module-level wrapper): late surrender check, then the pair-split
block, then the soft/hard total tables, returning the source's
single-character action codes. -/
def basic_strategy (player : List Rank) (dealer_up : Rank)
    (can_double can_split_pair surrender_allowed : Bool) : Char :=
  if surrender_allowed = true ∧ player.length = 2 ∧
      (hand_value player).2 = false ∧ (hand_value player).1 = 16 ∧
      (upValue dealer_up = 9 ∨ upValue dealer_up = 10 ∨
        upValue dealer_up = 11) then 'R'
  else if surrender_allowed = true ∧ player.length = 2 ∧
      (hand_value player).2 = false ∧ (hand_value player).1 = 15 ∧
      upValue dealer_up = 10 then 'R'
  else if can_split_pair = true ∧ player.length = 2 ∧
      player.getD 0 Rank.rA = player.getD 1 Rank.rA then
    pairBlock (pairValue (player.getD 0 Rank.rA)) (upValue dealer_up)
      can_double (hand_value player).1 (hand_value player).2
  else softHard (hand_value player).1 (hand_value player).2
    (upValue dealer_up) can_double

/-- The `while True` loop of `BlackjackAgent.dealer_play`, with an
explicit fuel (the index is the draw-stream cursor; drawing a card
appends it and advances the cursor). -/
def dealer_play_fuel (draws : Nat → Rank) (hit_soft_17 : Bool) :
    Nat → List Rank → Nat → List Rank × Nat
  | 0, dealer_cards, i => (dealer_cards, i)
  | fuel + 1, dealer_cards, i =>
    let t := hand_value dealer_cards
    if t.1 < 17 ∨ (t.1 = 17 ∧ t.2 = true ∧ hit_soft_17 = true) then
      dealer_play_fuel draws hit_soft_17 fuel (dealer_cards ++ [draws i]) (i + 1)
    else (dealer_cards, i)

/-- `BlackjackAgent.dealer_play`.  A fuel of 18 suffices for any
starting hand: each drawn card raises the minimal total by at least 1
and the loop only continues while the total (hence the minimal total)
is at most 17, so the loop below exits on its own within 18 checks
(`dealer_play_fuel_exit` proves the fuel is never exhausted). -/
def dealer_play (draws : Nat → Rank) (i : Nat) (dealer_cards : List Rank)
    (hit_soft_17 : Bool) : List Rank × Nat :=
  dealer_play_fuel draws hit_soft_17 18 dealer_cards i

example : hand_value [Rank.rA, Rank.r7] = (18, true) := by decide
example : hand_value [Rank.rA, Rank.rA] = (12, true) := by decide
example : hand_value [Rank.rA, Rank.rA, Rank.rK] = (12, false) := by decide
example : hand_value [Rank.rK, Rank.rQ, Rank.r5] = (25, false) := by decide
example : basic_strategy [Rank.r10, Rank.r6] Rank.r2 true false true = 'S' := by decide
example : basic_strategy [Rank.r10, Rank.r6] Rank.rK true false true = 'R' := by decide
example : basic_strategy [Rank.r8, Rank.r8] Rank.r2 true true true = 'P' := by decide
example : basic_strategy [Rank.r5, Rank.r6] Rank.r6 true false true = 'D' := by decide
example : basic_strategy [Rank.rA, Rank.rA] Rank.r5 true false true = 'S' := by decide
example : dealer_play (fun _ => Rank.r2) 0 [Rank.rA, Rank.r7] true = ([Rank.rA, Rank.r7], 0) := by decide
example : dealer_play (fun _ => Rank.r2) 5 [Rank.rA, Rank.r6] true =
    ([Rank.rA, Rank.r6, Rank.r2], 6) := by decide

/-- The rule configuration read out of the `rules` dict at the top of
`play_hand_once` (the listed values are the `rules.get` defaults used
by `simulate`). -/
structure Rules where
  hit_soft_17 : Bool
  late_surrender : Bool
  das : Bool
  resplit_limit : Nat
  peek : Bool
  blackjack_3to2 : Bool
deriving DecidableEq, Repr

/-- The `simulate` default rule set
`dict(hit_soft_17=True, late_surrender=True, das=True, resplit_limit=3, peek=True, blackjack_3to2=True)`. -/
def defaultRules : Rules := ⟨true, true, true, 3, true, true⟩

/-- The mutable `trackers` dict of counters.  Each Python
`Counter[key] += 1` on the two histogram counters is modelled by
appending the written key to a list (so the list is the multiset of
recorded keys); the named outcome/action counters are plain naturals. -/
structure Trackers where
  outcome_win : Nat
  outcome_loss : Nat
  outcome_push : Nat
  outcome_surrender : Nat
  outcome_blackjack_win : Nat
  outcome_blackjack_push : Nat
  outcome_dealer_bust_win : Nat
  outcome_dealer_blackjack : Nat
  counters_splits : Nat
  counters_doubles : Nat
  counters_player_bust : Nat
  counters_dealer_bust : Nat
  player_totals : List Nat
  dealer_totals : List Nat
  dealer_totals_bust : Nat
deriving DecidableEq, Repr

/-- All-zero trackers (a fresh `Counter()` set). -/
def trackers0 : Trackers := ⟨0, 0, 0, 0, 0, 0, 0, 0, 0, 0, 0, 0, [], [], 0⟩

/-- One work unit on the split stack: the tuple
`(cards, bet, splits_done, can_double)` of `play_hand_once`. -/
structure PendingHand where
  cards : List Rank
  bet : ℚ
  splits_done : Nat
  can_double : Bool
deriving DecidableEq, Repr

/-- Ghost trace entries recorded while the engine runs: one `dec` per
strategy query (the queried hand, the `can_double` flag and the
returned action) and one `dealerCall` per dealer comparison (the hand
`dealer_play` is started from). -/
inductive Event where
  | dec (cards : List Rank) (can_double : Bool) (action : Char)
  | dealerCall (hand : List Rank)
deriving DecidableEq, Repr

/-- State returned after resolving one pending hand: the remaining
stack, accumulated outcomes, trackers, draw cursor and ghost trace. -/
structure StackState where
  stack : List PendingHand
  outs : List (String × ℚ)
  tr : Trackers
  idx : Nat
  trace : List Event
deriving DecidableEq, Repr

/-- Final result of `play_hand_once`: the returned outcome list plus
the final trackers, draw cursor and ghost trace. -/
structure HandResult where
  outs : List (String × ℚ)
  tr : Trackers
  idx : Nat
  trace : List Event
deriving DecidableEq, Repr

/-- The outcome entry appended by the dealer-comparison block of
`play_hand_once`: win on dealer bust or higher player total, loss on
lower player total, push otherwise. -/
def compareEntry (total dtotal : Nat) (bet : ℚ) : String × ℚ :=
  if 21 < dtotal ∨ total > dtotal then ("win", bet)
  else if total < dtotal then ("loss", -bet)
  else ("push", 0)

/-- The code of `play_hand_once` that follows the per-hand decision
loop (reached whenever the loop ended without `surrendered`): bin the
player total, and if the hand did not bust run the dealer from a copy
of the two dealt dealer cards and record the comparison outcome. -/
def afterHand (ru : Rules) (dealer : List Rank) (draws : Nat → Rank)
    (cards : List Rank) (bet : ℚ) (rest : List PendingHand)
    (outs : List (String × ℚ)) (tr : Trackers) (i : Nat)
    (trace : List Event) : StackState :=
  let total := (hand_value cards).1
  let tr1 := if total > 21 then tr
    else { tr with player_totals := tr.player_totals ++ [total] }
  if total ≤ 21 then
    let dp := dealer_play draws i dealer ru.hit_soft_17
    let dtotal := (hand_value dp.1).1
    let tr2 :=
      if dtotal > 21 then
        { tr1 with counters_dealer_bust := tr1.counters_dealer_bust + 1,
                   dealer_totals_bust := tr1.dealer_totals_bust + 1 }
      else { tr1 with dealer_totals := tr1.dealer_totals ++ [max 17 dtotal] }
    let tr3 :=
      if 21 < dtotal ∨ total > dtotal then
        if 21 < dtotal then
          { tr2 with outcome_win := tr2.outcome_win + 1,
                     outcome_dealer_bust_win := tr2.outcome_dealer_bust_win + 1 }
        else { tr2 with outcome_win := tr2.outcome_win + 1 }
      else if total < dtotal then
        { tr2 with outcome_loss := tr2.outcome_loss + 1 }
      else { tr2 with outcome_push := tr2.outcome_push + 1 }
    ⟨rest, outs ++ [compareEntry total dtotal bet], tr3, dp.2,
      trace ++ [Event.dealerCall dealer]⟩
  else ⟨rest, outs, tr1, i, trace⟩

/-- The `while True` decision loop of `play_hand_once` for one popped
pending hand, with explicit fuel.  Terminal branches (surrender,
hit-bust, double, stand) run the post-loop code (`afterHand`; the
surrender branch skips it via `continue`) and return the updated
stack state; the hit-continue and split-continue branches recurse. -/
def innerLoop (ru : Rules) (dealer_up : Rank) (dealer : List Rank)
    (draws : Nat → Rank) :
    Nat → List Rank → ℚ → Nat → Bool → List PendingHand →
    List (String × ℚ) → Trackers → Nat → List Event → Option StackState
  | 0, _, _, _, _, _, _, _, _, _ => none
  | fuel + 1, cards, bet, splits_done, can_double, rest, outs, tr, i, trace =>
    let can_split_pair : Bool :=
      decide (cards.length = 2 ∧ cards.getD 0 Rank.rA = cards.getD 1 Rank.rA ∧
        splits_done < ru.resplit_limit)
    let action := basic_strategy cards dealer_up can_double can_split_pair
      ru.late_surrender
    let trace1 := trace ++ [Event.dec cards can_double action]
    if action = 'R' then
      some ⟨rest, outs ++ [("loss", -(1/2 : ℚ) * bet)],
        { tr with outcome_surrender := tr.outcome_surrender + 1,
                  outcome_loss := tr.outcome_loss + 1 }, i, trace1⟩
    else if action = 'P' ∧ can_split_pair = true then
      let c := cards.getD 0 Rank.rA
      let hand1 := [c, draws i]
      let hand2 := [c, draws (i + 1)]
      innerLoop ru dealer_up dealer draws fuel hand1 bet splits_done ru.das
        (⟨hand2, bet, splits_done + 1, ru.das⟩ :: rest) outs
        { tr with counters_splits := tr.counters_splits + 1 } (i + 2) trace1
    else if action = 'D' ∧ can_double = true then
      some (afterHand ru dealer draws (cards ++ [draws i]) (bet * 2) rest outs
        { tr with counters_doubles := tr.counters_doubles + 1 } (i + 1) trace1)
    else if action = 'H' then
      let cards1 := cards ++ [draws i]
      if (hand_value cards1).1 > 21 then
        some (afterHand ru dealer draws cards1 bet rest
          (outs ++ [("loss", -bet)])
          { tr with outcome_loss := tr.outcome_loss + 1,
                    counters_player_bust := tr.counters_player_bust + 1 }
          (i + 1) trace1)
      else
        innerLoop ru dealer_up dealer draws fuel cards1 bet splits_done false
          rest outs tr (i + 1) trace1
    else
      some (afterHand ru dealer draws cards bet rest outs tr i trace1)

/-- The `while stack:` loop of `play_hand_once`: pop a pending hand,
resolve it with the decision loop, repeat (with explicit fuel). -/
def resolveStack (ru : Rules) (dealer_up : Rank) (dealer : List Rank)
    (draws : Nat → Rank) :
    Nat → List PendingHand → List (String × ℚ) → Trackers → Nat →
    List Event → Option HandResult
  | 0, _, _, _, _, _ => none
  | _ + 1, [], outs, tr, i, trace => some ⟨outs, tr, i, trace⟩
  | fuel + 1, ph :: rest, outs, tr, i, trace =>
    match innerLoop ru dealer_up dealer draws (fuel + 1) ph.cards ph.bet
      ph.splits_done ph.can_double rest outs tr i trace with
    | none => none
    | some s => resolveStack ru dealer_up dealer draws fuel s.stack s.outs
        s.tr s.idx s.trace

/-- `play_hand_once`: deal player and dealer (draw-stream indices
0–3), run the dealer-peek and player-blackjack short circuits, and
otherwise resolve the work stack seeded with the dealt player hand. -/
def play_hand_once (ru : Rules) (tr : Trackers) (draws : Nat → Rank)
    (fuel : Nat) : Option HandResult :=
  let player := [draws 0, draws 1]
  let dealer := [draws 2, draws 3]
  let dealer_up := dealer.getD 0 Rank.rA
  let dealer_blackjack := is_blackjack dealer
  let player_blackjack := is_blackjack player
  if ru.peek = true ∧
      (dealer_up = .r10 ∨ dealer_up = .rJ ∨ dealer_up = .rQ ∨
        dealer_up = .rK ∨ dealer_up = .rA) ∧ dealer_blackjack = true then
    if player_blackjack = true then
      some ⟨[("push", 0)],
        { tr with outcome_blackjack_push := tr.outcome_blackjack_push + 1,
                  outcome_push := tr.outcome_push + 1 }, 4, []⟩
    else
      some ⟨[("loss", -1)],
        { tr with outcome_loss := tr.outcome_loss + 1,
                  outcome_dealer_blackjack := tr.outcome_dealer_blackjack + 1 },
        4, []⟩
  else if player_blackjack = true then
    some ⟨[("win", if ru.blackjack_3to2 = true then 3/2 else 6/5)],
      { tr with outcome_blackjack_win := tr.outcome_blackjack_win + 1,
                outcome_win := tr.outcome_win + 1 }, 4, []⟩
  else
    resolveStack ru dealer_up dealer draws fuel
      [⟨player, 1, 0, true⟩] [] tr 4 []

/-! ## Hand arithmetic lemmas -/

theorem one_le_baseValue (c : Rank) : 1 ≤ baseValue c := by cases c <;> decide

theorem baseValue_le_ten (c : Rank) : baseValue c ≤ 10 := by cases c <;> decide

theorem countAces_le_rawSum (cards : List Rank) :
    countAces cards ≤ rawSum cards := by
  induction cards with
  | nil => simp [countAces, rawSum]
  | cons c cs ih =>
    have h1 := one_le_baseValue c
    simp only [countAces, rawSum, List.count_cons, List.map_cons,
      List.sum_cons] at *
    split <;> omega

theorem rawSum_append (cards : List Rank) (c : Rank) :
    rawSum (cards ++ [c]) = rawSum cards + baseValue c := by
  simp [rawSum]

/-- Once an Ace has been promoted, no further promotion ever fires:
either no Aces are left or a second promotion would overshoot. -/
theorem promoteAces_once (a t : Nat) (h : a = 0 ∨ 21 < t + 10) :
    promoteAces a t true = (t, true) := by
  cases a with
  | zero => rfl
  | succ a =>
    have ht : ¬ (t + 10 ≤ 21) := by omega
    simp [promoteAces, ht]

/-- Closed form of the promotion loop when each Ace contributes at
least 1 to the base total (which `countAces_le_rawSum` guarantees for
`hand_value`): at most one Ace is ever promoted. -/
theorem promoteAces_spec (a t : Nat) (h : a ≤ t) :
    promoteAces a t false =
      if 1 ≤ a ∧ t + 10 ≤ 21 then (t + 10, true) else (t, false) := by
  cases a with
  | zero => simp [promoteAces]
  | succ a =>
    by_cases ht : t + 10 ≤ 21
    · have : promoteAces a (t + 10) true = (t + 10, true) := by
        apply promoteAces_once
        omega
      simp [promoteAces, ht, this]
    · simp [promoteAces, ht]

/-- Closed form of `hand_value`: promote exactly one Ace when there
is one and it fits, otherwise the raw all-Aces-at-1 sum. -/
theorem hand_value_eq (cards : List Rank) :
    hand_value cards =
      if 1 ≤ countAces cards ∧ rawSum cards + 10 ≤ 21 then
        (rawSum cards + 10, true)
      else (rawSum cards, false) :=
  promoteAces_spec _ _ (countAces_le_rawSum cards)

theorem rawSum_le_hand_value (cards : List Rank) :
    rawSum cards ≤ (hand_value cards).1 := by
  rw [hand_value_eq]; split <;> simp

theorem hand_value_of_soft (cards : List Rank)
    (h : (hand_value cards).2 = true) :
    (hand_value cards).1 = rawSum cards + 10 ∧ 1 ≤ countAces cards := by
  rw [hand_value_eq] at *
  split at h
  · simp_all
  · simp at h

theorem hand_value_of_hard (cards : List Rank)
    (h : (hand_value cards).2 = false) :
    (hand_value cards).1 = rawSum cards := by
  rw [hand_value_eq] at h ⊢
  by_cases hc : 1 ≤ countAces cards ∧ rawSum cards + 10 ≤ 21
  · rw [if_pos hc] at h
    simp at h
  · rw [if_neg hc]

theorem eleven_le_of_soft (cards : List Rank)
    (h : (hand_value cards).2 = true) : 11 ≤ (hand_value cards).1 := by
  obtain ⟨h1, h2⟩ := hand_value_of_soft cards h
  have := countAces_le_rawSum cards
  omega

theorem hand_value_le_of_raw (cards : List Rank)
    (h : rawSum cards ≤ 21) : (hand_value cards).1 ≤ 21 := by
  rw [hand_value_eq]; split <;> simp <;> omega

theorem rawSum_two (cards : List Rank) (h : cards.length = 2) :
    rawSum cards ≤ 20 := by
  match cards, h with
  | [a, b], _ =>
    have ha := baseValue_le_ten a
    have hb := baseValue_le_ten b
    simp only [rawSum, List.map_cons, List.map_nil, List.sum_cons,
      List.sum_nil]
    omega

theorem two_card_le_21 (cards : List Rank) (h : cards.length = 2) :
    (hand_value cards).1 ≤ 21 :=
  hand_value_le_of_raw cards (le_trans (rawSum_two cards h) (by omega))

/-- A hand on which the strategy allows a double can never bust on
the single doubled card: hard totals are at most 11 and soft totals
at most 18, so the new raw sum is at most 21. -/
theorem double_no_bust (cards : List Rank)
    (h : ((hand_value cards).2 = false ∧ (hand_value cards).1 ≤ 11) ∨
         ((hand_value cards).2 = true ∧ (hand_value cards).1 ≤ 18))
    (c : Rank) : (hand_value (cards ++ [c])).1 ≤ 21 := by
  apply hand_value_le_of_raw
  rw [rawSum_append]
  have hc := baseValue_le_ten c
  rcases h with ⟨hs, ht⟩ | ⟨hs, ht⟩
  · have := hand_value_of_hard cards hs
    omega
  · have := (hand_value_of_soft cards hs).1
    omega

/-! ## Strategy table lemmas -/

/-- The three actions the soft/hard tables can produce. -/
def isHSD (x : Char) : Prop := x = 'H' ∨ x = 'S' ∨ x = 'D'

/-- The five action codes of the strategy table. -/
def isAction (x : Char) : Prop :=
  x = 'H' ∨ x = 'S' ∨ x = 'D' ∨ x = 'P' ∨ x = 'R'

theorem isHSD.toAction {x : Char} (h : isHSD x) : isAction x := by
  rcases h with h | h | h
  · exact Or.inl h
  · exact Or.inr (Or.inl h)
  · exact Or.inr (Or.inr (Or.inl h))

theorem hardTotals_mem (total upv : Nat) (can_double : Bool) :
    isHSD (hardTotals total upv can_double) := by
  unfold hardTotals
  repeat' split
  all_goals first
    | exact Or.inl rfl
    | exact Or.inr (Or.inl rfl)
    | exact Or.inr (Or.inr rfl)

theorem softHard_mem (total : Nat) (soft : Bool) (upv : Nat)
    (can_double : Bool) : isHSD (softHard total soft upv can_double) := by
  unfold softHard
  repeat' split
  all_goals first
    | exact Or.inl rfl
    | exact Or.inr (Or.inl rfl)
    | exact Or.inr (Or.inr rfl)
    | exact hardTotals_mem total upv can_double

theorem pairBlock_mem (v upv : Nat) (can_double : Bool) (total : Nat)
    (soft : Bool) : isAction (pairBlock v upv can_double total soft) := by
  unfold pairBlock
  repeat' split
  all_goals first
    | exact Or.inl rfl
    | exact Or.inr (Or.inl rfl)
    | exact Or.inr (Or.inr (Or.inl rfl))
    | exact Or.inr (Or.inr (Or.inr (Or.inl rfl)))
    | exact Or.inr (Or.inr (Or.inr (Or.inr rfl)))
    | exact (softHard_mem total soft upv can_double).toAction

/-- Totality of the decision table: every query answers with one of
the five action codes. -/
theorem basic_strategy_mem (player : List Rank) (dealer_up : Rank)
    (can_double can_split_pair surrender_allowed : Bool) :
    isAction (basic_strategy player dealer_up can_double can_split_pair
      surrender_allowed) := by
  unfold basic_strategy
  repeat' split
  all_goals first
    | exact Or.inr (Or.inr (Or.inr (Or.inr rfl)))
    | exact pairBlock_mem _ _ _ _ _
    | exact (softHard_mem _ _ _ _).toAction

theorem hardTotals_D (total upv : Nat) (can_double : Bool)
    (h : hardTotals total upv can_double = 'D') :
    can_double = true ∧ 9 ≤ total ∧ total ≤ 11 := by
  unfold hardTotals at h
  repeat' split at h
  all_goals simp_all

/-- The `'D'` leaves of the soft/hard tables: only with the
`can_double` flag set, and only on soft 13–18 or (possibly soft)
totals 9–11. -/
theorem softHard_D (total : Nat) (soft : Bool) (upv : Nat)
    (can_double : Bool) (h : softHard total soft upv can_double = 'D') :
    can_double = true ∧
      ((soft = true ∧ 13 ≤ total ∧ total ≤ 18) ∨
       (9 ≤ total ∧ total ≤ 11)) := by
  unfold softHard at h
  repeat' split at h
  all_goals first
    | exact absurd h (by decide)
    | (rename_i hg hd
       obtain ⟨hs, ht⟩ := hg
       exact ⟨hd.1, Or.inl ⟨hs, by omega, by omega⟩⟩)
    | (have hh := hardTotals_D total upv can_double h
       exact ⟨hh.1, Or.inr hh.2⟩)

/-- The `'D'` leaf of the pair block is the pair-of-5s double (or the
structurally-unreachable fall-through to the soft/hard tables). -/
theorem pairBlock_D (v upv : Nat) (can_double : Bool) (total : Nat)
    (soft : Bool) (h : pairBlock v upv can_double total soft = 'D') :
    (can_double = true ∧ v = 5) ∨
      softHard total soft upv can_double = 'D' := by
  unfold pairBlock at h
  repeat' split at h
  all_goals first
    | exact absurd h (by decide)
    | (rename_i hv hd
       exact Or.inl ⟨hd.1, hv⟩)
    | exact Or.inr h

theorem pairValue_five (c : Rank) (h : pairValue c = 5) : c = Rank.r5 := by
  cases c <;> simp_all [pairValue]

/-- The strategy returns `'D'` only when `can_double` is set, and
then only on a hand whose value is hard 9–11 (this includes a pair of
5s) or soft 11–18 (soft 11 means a lone Ace, impossible for the
two-card hands the engine doubles). -/
theorem basic_strategy_D_shape (player : List Rank) (dealer_up : Rank)
    (can_double can_split_pair surrender_allowed : Bool)
    (h : basic_strategy player dealer_up can_double can_split_pair
      surrender_allowed = 'D') :
    can_double = true ∧
      (((hand_value player).2 = true ∧ 13 ≤ (hand_value player).1 ∧
          (hand_value player).1 ≤ 18) ∨
       (9 ≤ (hand_value player).1 ∧ (hand_value player).1 ≤ 11)) := by
  unfold basic_strategy at h
  repeat' split at h
  · exact absurd h (by decide)
  · exact absurd h (by decide)
  · -- the pair block
    rename_i hpair
    rcases pairBlock_D _ _ _ _ _ h with ⟨hcd, hv⟩ | hsh
    · refine ⟨hcd, Or.inr ?_⟩
      have h5c : player.getD 0 Rank.rA = Rank.r5 := pairValue_five _ hv
      obtain ⟨-, hlen, heq⟩ := hpair
      match player, hlen with
      | [a, b], _ =>
        simp only [List.getD, List.getElem?_cons_zero,
          Option.getD_some] at h5c heq
        simp at heq
        subst h5c
        rw [← heq]
        decide
    · have hh := softHard_D _ _ _ _ hsh
      exact ⟨hh.1, hh.2⟩
  · have hh := softHard_D _ _ _ _ h
    exact ⟨hh.1, hh.2⟩

/-- Weaker form of the Double shape fact, sufficient for the
no-bust argument. -/
theorem basic_strategy_D (player : List Rank) (dealer_up : Rank)
    (can_double can_split_pair surrender_allowed : Bool)
    (h : basic_strategy player dealer_up can_double can_split_pair
      surrender_allowed = 'D') :
    can_double = true ∧
      (((hand_value player).2 = false ∧ 9 ≤ (hand_value player).1 ∧
          (hand_value player).1 ≤ 11) ∨
       ((hand_value player).2 = true ∧ 11 ≤ (hand_value player).1 ∧
          (hand_value player).1 ≤ 18)) := by
  have hshape := basic_strategy_D_shape _ _ _ _ _ h
  refine ⟨hshape.1, ?_⟩
  rcases hshape.2 with ⟨hs, hl, hr⟩ | ⟨hl, hr⟩
  · exact Or.inr ⟨hs, by omega, hr⟩
  · cases hs : (hand_value player).2 with
    | false => exact Or.inl ⟨rfl, hl, hr⟩
    | true =>
      have := eleven_le_of_soft player hs
      exact Or.inr ⟨rfl, this, by omega⟩

theorem rawSum_two_ge (cards : List Rank) (h : cards.length = 2) :
    2 ≤ rawSum cards := by
  match cards, h with
  | [a, b], _ =>
    have ha := one_le_baseValue a
    have hb := one_le_baseValue b
    simp only [rawSum, List.map_cons, List.map_nil, List.sum_cons,
      List.sum_nil]
    omega

/-- On a two-card hand the strategy doubles exactly on the shapes of
the basic-strategy chart: hard 9, 10 or 11 (the pair of 5s totals
hard 10) or soft 13 through 18. -/
theorem basic_strategy_D_two (player : List Rank) (dealer_up : Rank)
    (can_double can_split_pair surrender_allowed : Bool)
    (h : basic_strategy player dealer_up can_double can_split_pair
      surrender_allowed = 'D') (hlen : player.length = 2) :
    ((hand_value player).2 = false ∧ 9 ≤ (hand_value player).1 ∧
        (hand_value player).1 ≤ 11) ∨
      ((hand_value player).2 = true ∧ 13 ≤ (hand_value player).1 ∧
        (hand_value player).1 ≤ 18) := by
  rcases (basic_strategy_D_shape _ _ _ _ _ h).2 with ⟨hs, hl, hr⟩ | ⟨hl, hr⟩
  · exact Or.inr ⟨hs, hl, hr⟩
  · cases hs : (hand_value player).2 with
    | false => exact Or.inl ⟨rfl, hl, hr⟩
    | true =>
      have h10 := (hand_value_of_soft player hs).1
      have h2 := rawSum_two_ge player hlen
      exact absurd hr (by omega)

/-- Whenever the strategy chooses Double, drawing any single card
cannot bust the hand. -/
theorem basic_strategy_D_no_bust (player : List Rank) (dealer_up : Rank)
    (can_double can_split_pair surrender_allowed : Bool)
    (h : basic_strategy player dealer_up can_double can_split_pair
      surrender_allowed = 'D') (c : Rank) :
    (hand_value (player ++ [c])).1 ≤ 21 := by
  apply double_no_bust
  rcases (basic_strategy_D _ _ _ _ _ h).2 with ⟨hs, -, hr⟩ | ⟨hs, -, hr⟩
  · exact Or.inl ⟨hs, hr⟩
  · exact Or.inr ⟨hs, hr⟩
/-! ## Dealer resolution lemmas -/

/-- The dealer loop's fuel is never exhausted once
`fuel + rawSum ≥ 17`: every continuing iteration raises the raw sum
by at least 1 and the loop only continues while the total is at most
17, so the returned hand always fails the continue condition. -/
theorem dealer_play_fuel_exit (draws : Nat → Rank) (hit_soft_17 : Bool) :
    ∀ (fuel : Nat) (cards : List Rank) (i : Nat),
      17 ≤ fuel + rawSum cards →
      ¬((hand_value (dealer_play_fuel draws hit_soft_17 fuel cards i).1).1 < 17 ∨
        ((hand_value (dealer_play_fuel draws hit_soft_17 fuel cards i).1).1 = 17 ∧
         (hand_value (dealer_play_fuel draws hit_soft_17 fuel cards i).1).2 = true ∧
         hit_soft_17 = true)) := by
  intro fuel
  induction fuel with
  | zero =>
    intro cards i hge
    simp only [dealer_play_fuel]
    have hraw : 17 ≤ rawSum cards := by omega
    have hlow := rawSum_le_hand_value cards
    rintro (hlt | ⟨h17, hsoft, -⟩)
    · omega
    · have := (hand_value_of_soft cards hsoft).1
      omega
  | succ fuel ih =>
    intro cards i hge
    rw [dealer_play_fuel]
    by_cases hc : (hand_value cards).1 < 17 ∨
        ((hand_value cards).1 = 17 ∧ (hand_value cards).2 = true ∧
         hit_soft_17 = true)
    · rw [if_pos hc]
      apply ih
      rw [rawSum_append]
      have := one_le_baseValue (draws i)
      omega
    · rw [if_neg hc]
      exact hc

/-- The dealer only ever appends to the hand it is given. -/
theorem dealer_play_fuel_append (draws : Nat → Rank) (hit_soft_17 : Bool) :
    ∀ (fuel : Nat) (cards : List Rank) (i : Nat),
      ∃ t, (dealer_play_fuel draws hit_soft_17 fuel cards i).1 = cards ++ t := by
  intro fuel
  induction fuel with
  | zero => intro cards i; exact ⟨[], by simp [dealer_play_fuel]⟩
  | succ fuel ih =>
    intro cards i
    rw [dealer_play_fuel]
    split
    · obtain ⟨t, ht⟩ := ih (cards ++ [draws i]) (i + 1)
      exact ⟨[draws i] ++ t, by simp_all⟩
    · exact ⟨[], by simp⟩

/-! ## Engine lemmas -/

/-- A non-busted hand always reaches the dealer comparison: the
post-loop code appends exactly the comparison entry, records the
dealer call in the trace, leaves the stack alone and advances the
cursor to wherever the dealer stopped drawing. -/
theorem afterHand_of_le (ru : Rules) (dealer : List Rank)
    (draws : Nat → Rank) (cards : List Rank) (bet : ℚ)
    (rest : List PendingHand) (outs : List (String × ℚ)) (tr : Trackers)
    (i : Nat) (trace : List Event) (h : (hand_value cards).1 ≤ 21) :
    ∃ tr2, afterHand ru dealer draws cards bet rest outs tr i trace =
      ⟨rest,
        outs ++ [compareEntry (hand_value cards).1
          (hand_value (dealer_play draws i dealer ru.hit_soft_17).1).1 bet],
        tr2, (dealer_play draws i dealer ru.hit_soft_17).2,
        trace ++ [Event.dealerCall dealer]⟩ := by
  simp only [afterHand]
  rw [if_neg (show ¬((hand_value cards).1 > 21) from by omega), if_pos h]
  exact ⟨_, rfl⟩

/-- A busted hand skips the dealer comparison entirely: no outcome
entry, no dealer call, no tracker change beyond the (skipped) total
bin, no cursor movement. -/
theorem afterHand_of_gt (ru : Rules) (dealer : List Rank)
    (draws : Nat → Rank) (cards : List Rank) (bet : ℚ)
    (rest : List PendingHand) (outs : List (String × ℚ)) (tr : Trackers)
    (i : Nat) (trace : List Event) (h : 21 < (hand_value cards).1) :
    afterHand ru dealer draws cards bet rest outs tr i trace =
      ⟨rest, outs, tr, i, trace⟩ := by
  simp only [afterHand]
  rw [if_pos (show (hand_value cards).1 > 21 from by omega),
    if_neg (show ¬((hand_value cards).1 ≤ 21) from by omega)]

/-- Record updates performed by the comparison code never touch the
splits counter. -/
theorem afterHand_splits (ru : Rules) (dealer : List Rank)
    (draws : Nat → Rank) (cards : List Rank) (bet : ℚ)
    (rest : List PendingHand) (outs : List (String × ℚ)) (tr : Trackers)
    (i : Nat) (trace : List Event) :
    (afterHand ru dealer draws cards bet rest outs tr i trace).tr.counters_splits =
      tr.counters_splits := by
  simp only [afterHand]
  repeat' split
  all_goals rfl

/-- Resolving one popped pending hand appends exactly one outcome
entry, pushes exactly as many hands as split actions it performs
(every pushed hand having two cards), and never removes other stack
entries.  Needs the popped hand to start unbusted (true of every
two-card hand), since a busted stand would record nothing. -/
theorem innerLoop_spec (ru : Rules) (dealer_up : Rank)
    (dealer : List Rank) (draws : Nat → Rank) :
    ∀ (fuel : Nat) (cards : List Rank) (bet : ℚ) (splits_done : Nat)
      (can_double : Bool) (rest : List PendingHand)
      (outs : List (String × ℚ)) (tr : Trackers) (i : Nat)
      (trace : List Event) (s : StackState),
      innerLoop ru dealer_up dealer draws fuel cards bet splits_done
        can_double rest outs tr i trace = some s →
      (hand_value cards).1 ≤ 21 →
      (∀ ph ∈ rest, ph.cards.length = 2) →
      s.outs.length = outs.length + 1 ∧
      s.stack.length + tr.counters_splits =
        rest.length + s.tr.counters_splits ∧
      (∀ ph ∈ s.stack, ph.cards.length = 2) := by
  intro fuel
  induction fuel with
  | zero =>
    intro cards bet splits_done can_double rest outs tr i trace s hsome _ _
    simp [innerLoop] at hsome
  | succ f ih =>
    intro cards bet splits_done can_double rest outs tr i trace s hsome
      hle hrest
    simp only [innerLoop] at hsome
    split at hsome
    · -- surrender
      rw [Option.some_inj] at hsome
      subst hsome
      refine ⟨by simp, rfl, hrest⟩
    · split at hsome
      · -- split action: recurse on the first half, push the second
        rename_i hP
        have h1 : (hand_value [cards.getD 0 Rank.rA, draws i]).1 ≤ 21 :=
          two_card_le_21 _ rfl
        have h2 : ∀ ph ∈
            (⟨[cards.getD 0 Rank.rA, draws (i + 1)], bet, splits_done + 1,
              ru.das⟩ : PendingHand) :: rest, ph.cards.length = 2 := by
          intro ph hph
          rcases List.mem_cons.1 hph with rfl | hph
          · rfl
          · exact hrest ph hph
        obtain ⟨ho, hs, hp⟩ := ih _ _ _ _ _ _ _ _ _ _ hsome h1 h2
        refine ⟨ho, ?_, hp⟩
        have hs2 : s.stack.length + (tr.counters_splits + 1) =
            (rest.length + 1) + s.tr.counters_splits := hs
        omega
      · split at hsome
        · -- double: one card, then the comparison (cannot bust)
          rename_i hnR hnP hD
          have hno : (hand_value (cards ++ [draws i])).1 ≤ 21 :=
            basic_strategy_D_no_bust _ _ _ _ _ hD.1 (draws i)
          obtain ⟨tr2, heq⟩ := afterHand_of_le ru dealer draws
            (cards ++ [draws i]) (bet * 2) rest outs
            { tr with counters_doubles := tr.counters_doubles + 1 }
            (i + 1) _ hno
          have hsp := afterHand_splits ru dealer draws
            (cards ++ [draws i]) (bet * 2) rest outs
            { tr with counters_doubles := tr.counters_doubles + 1 }
            (i + 1) (trace ++ [Event.dec cards can_double
              (basic_strategy cards dealer_up can_double
                (decide (cards.length = 2 ∧
                  cards.getD 0 Rank.rA = cards.getD 1 Rank.rA ∧
                  splits_done < ru.resplit_limit)) ru.late_surrender)])
          rw [heq] at hsp hsome
          rw [Option.some_inj] at hsome
          subst hsome
          refine ⟨by simp, ?_, hrest⟩
          have hsp2 : tr2.counters_splits = tr.counters_splits := hsp
          show rest.length + tr.counters_splits =
            rest.length + tr2.counters_splits
          omega
        · split at hsome
          · -- hit
            split at hsome
            · -- hit and bust: loss recorded, comparison skipped
              rename_i hbust
              rw [afterHand_of_gt _ _ _ _ _ _ _ _ _ _ hbust] at hsome
              rw [Option.some_inj] at hsome
              subst hsome
              refine ⟨by simp, rfl, hrest⟩
            · -- hit below 22: keep looping with the new card
              rename_i hnbust
              exact ih _ _ _ _ _ _ _ _ _ _ hsome (by omega) hrest
          · -- stand: straight to the comparison
            obtain ⟨tr2, heq⟩ := afterHand_of_le ru dealer draws cards bet
              rest outs tr i _ hle
            have hsp := afterHand_splits ru dealer draws cards bet rest
              outs tr i (trace ++ [Event.dec cards can_double
                (basic_strategy cards dealer_up can_double
                  (decide (cards.length = 2 ∧
                    cards.getD 0 Rank.rA = cards.getD 1 Rank.rA ∧
                    splits_done < ru.resplit_limit)) ru.late_surrender)])
            rw [heq] at hsp hsome
            rw [Option.some_inj] at hsome
            subst hsome
            refine ⟨by simp, ?_, hrest⟩
            have hsp2 : tr2.counters_splits = tr.counters_splits := hsp
            show rest.length + tr.counters_splits =
              rest.length + tr2.counters_splits
            omega

/-- Draining the work stack appends exactly one outcome entry per
pending hand plus one per split performed along the way. -/
theorem resolveStack_spec (ru : Rules) (dealer_up : Rank)
    (dealer : List Rank) (draws : Nat → Rank) :
    ∀ (fuel : Nat) (stack : List PendingHand)
      (outs : List (String × ℚ)) (tr : Trackers) (i : Nat)
      (trace : List Event) (r : HandResult),
      resolveStack ru dealer_up dealer draws fuel stack outs tr i trace =
        some r →
      (∀ ph ∈ stack, ph.cards.length = 2) →
      r.outs.length + tr.counters_splits =
        outs.length + stack.length + r.tr.counters_splits := by
  intro fuel
  induction fuel with
  | zero =>
    intro stack outs tr i trace r hsome _
    simp [resolveStack] at hsome
  | succ f ih =>
    intro stack outs tr i trace r hsome hstack
    match stack, hstack with
    | [], _ =>
      simp only [resolveStack, Option.some_inj] at hsome
      subst hsome
      simp
    | ph :: rest, hstack =>
      simp only [resolveStack] at hsome
      split at hsome
      · exact absurd hsome (by simp)
      · rename_i s hinner
        have hle : (hand_value ph.cards).1 ≤ 21 :=
          two_card_le_21 _ (hstack ph (List.mem_cons_self ph rest))
        have hrest : ∀ q ∈ rest, q.cards.length = 2 := fun q hq =>
          hstack q (List.mem_cons_of_mem ph hq)
        obtain ⟨ho, hs, hp⟩ := innerLoop_spec ru dealer_up dealer draws
          (f + 1) ph.cards ph.bet ph.splits_done ph.can_double rest outs
          tr i trace s hinner hle hrest
        have hr := ih s.stack s.outs s.tr s.idx s.trace r hsome hp
        simp only [List.length_cons]
        omega

/-- **C1** For every initial deal not settled by the dealer-peek or
player-blackjack short circuits, a completed run of `play_hand_once`
returns exactly one `(outcome, payoff)` entry per subhand: with `k`
split actions recorded, `k + 1` entries (doubled subhands included,
since a doubled hand can never bust). -/
theorem play_hand_once_one_entry_per_subhand
    (ru : Rules) (tr : Trackers) (draws : Nat → Rank) (fuel : Nat)
    (r : HandResult)
    (hpeek : ¬(ru.peek = true ∧
      (draws 2 = Rank.r10 ∨ draws 2 = Rank.rJ ∨ draws 2 = Rank.rQ ∨
       draws 2 = Rank.rK ∨ draws 2 = Rank.rA) ∧
      is_blackjack [draws 2, draws 3] = true))
    (hpbj : is_blackjack [draws 0, draws 1] = false)
    (hrun : play_hand_once ru tr draws fuel = some r) :
    r.outs.length + tr.counters_splits = r.tr.counters_splits + 1 := by
  simp only [play_hand_once, List.getD_cons_zero] at hrun
  rw [if_neg hpeek] at hrun
  rw [if_neg (by simp [hpbj])] at hrun
  have hlen : ∀ ph ∈ [(⟨[draws 0, draws 1], 1, 0, true⟩ : PendingHand)],
      ph.cards.length = 2 := by
    intro ph hph
    simp only [List.mem_singleton] at hph
    subst hph
    rfl
  have h := resolveStack_spec ru (draws 2) [draws 2, draws 3] draws fuel
    [⟨[draws 0, draws 1], 1, 0, true⟩] [] tr 4 [] r hrun hlen
  simp only [List.length_nil, List.length_singleton] at h
  omega

/-- Draw script: player 10,6 against dealer 2,10; the stand at hard
16 is followed by a dealer draw of 10 (dealer busts at 22). -/
def scriptC1w : Nat → Rank := fun n =>
  [Rank.r10, Rank.r6, Rank.r2, Rank.r10, Rank.r10].getD n Rank.r2

/-- Trackers after resolving `scriptC1w` under the default rules. -/
def trackersC1w : Trackers := ⟨1, 0, 0, 0, 0, 0, 1, 0, 0, 0, 0, 1, [16], [], 1⟩

/-- The full result of resolving `scriptC1w` under the default rules. -/
def resultC1w : HandResult :=
  ⟨[("win", 1)], trackersC1w, 5,
    [Event.dec [Rank.r10, Rank.r6] true 'S',
     Event.dealerCall [Rank.r2, Rank.r10]]⟩

/-- Witness for the C1 theorem at the concrete deal `scriptC1w`:
one stood subhand, zero splits, exactly one outcome entry. -/
theorem play_hand_once_one_entry_per_subhand_witness :
    resultC1w.outs.length + trackers0.counters_splits =
      resultC1w.tr.counters_splits + 1 :=
  play_hand_once_one_entry_per_subhand defaultRules trackers0 scriptC1w 40
    resultC1w (by decide) (by decide) (by rfl)

/-- Rule set with a resplit limit of one. -/
def rulesC2 : Rules := ⟨true, true, true, 1, true, true⟩

/-- Draw script: player 8,8 against dealer 2,7; each split's first
hand draws another 8 (so it is a splittable pair again), the second
hand draws a 3; the final first hand draws a 10 and stands, the three
8-3 hands double into a 10 and the dealer draws an 8 to 17 each time. -/
def scriptC2w : Nat → Rank := fun n =>
  [Rank.r8, Rank.r8, Rank.r2, Rank.r7, Rank.r8, Rank.r3, Rank.r8,
   Rank.r3, Rank.r10, Rank.r3, Rank.r8, Rank.r10, Rank.r8, Rank.r10,
   Rank.r8, Rank.r10, Rank.r8].getD n Rank.r2

/-- **C2** is violated by the code: with `resplit_limit = 1` the deal
scripted by `scriptC2w` performs three split actions (the engine
pushes the second hand with `splits_done + 1` but keeps iterating the
first hand with its *old* `splits_done`, so the continuing pair stays
split-eligible forever). -/
theorem play_hand_once_resplit_limit_violated :
    (play_hand_once rulesC2 trackers0 scriptC2w 64).map
        (fun r => r.tr.counters_splits) = some 3 ∧
      rulesC2.resplit_limit = 1 := by
  constructor
  · rfl
  · rfl

/-- **C9** is violated by the code: evaluating the empty hand does
not abort; `hand_value` silently returns the normal result
`(0, False)`. -/
theorem hand_value_nil_returns_normally : hand_value [] = (0, false) := rfl

/-- **C4** The dealer-comparison entry is a trichotomy on the player
total `total` and dealer total `dtotal`: win exactly on dealer bust
or a strictly higher player total, loss exactly on a strictly lower
player total with the dealer standing at most 21, push exactly on a
tie with the dealer at most 21. -/
theorem compareEntry_trichotomy (total dtotal : Nat) (bet : ℚ) :
    (compareEntry total dtotal bet = ("win", bet) ↔
      (21 < dtotal ∨ dtotal < total)) ∧
    (compareEntry total dtotal bet = ("loss", -bet) ↔
      (dtotal ≤ 21 ∧ total < dtotal)) ∧
    (compareEntry total dtotal bet = ("push", 0) ↔
      (dtotal ≤ 21 ∧ total = dtotal)) := by
  unfold compareEntry
  refine ⟨?_, ?_, ?_⟩ <;> constructor <;> intro h
  · split_ifs at h with h1 h2 <;> simp_all
  · rw [if_pos (by omega)]
  · split_ifs at h with h1 h2 <;> simp_all
  · rw [if_neg (by omega), if_pos (by omega)]
  · split_ifs at h with h1 h2 <;> simp_all
    omega
  · rw [if_neg (by omega), if_neg (by omega)]

/-- **C5** `hand_value` computes the best Ace assignment: whenever
some assignment of 1 or 11 to the Aces (`rawSum + 10*k` for `k` Aces
promoted) stays at most 21, the returned total is the largest such
value; otherwise it is the all-Aces-at-1 sum; the soft flag is set
exactly when an Ace ended up counted as 11; Ace-free hands are never
soft and total the raw value sum. -/
theorem hand_value_best_assignment (cards : List Rank) :
    ((∃ k, k ≤ countAces cards ∧ rawSum cards + 10 * k ≤ 21) →
      (hand_value cards).1 ≤ 21 ∧
      (∃ k, k ≤ countAces cards ∧
        (hand_value cards).1 = rawSum cards + 10 * k) ∧
      (∀ k, k ≤ countAces cards → rawSum cards + 10 * k ≤ 21 →
        rawSum cards + 10 * k ≤ (hand_value cards).1)) ∧
    ((¬∃ k, k ≤ countAces cards ∧ rawSum cards + 10 * k ≤ 21) →
      (hand_value cards).1 = rawSum cards) ∧
    ((hand_value cards).2 = true ↔
      1 ≤ countAces cards ∧ (hand_value cards).1 = rawSum cards + 10) ∧
    (countAces cards = 0 →
      (hand_value cards).2 = false ∧ (hand_value cards).1 = rawSum cards) := by
  have hav := countAces_le_rawSum cards
  rw [hand_value_eq]
  by_cases hg : 1 ≤ countAces cards ∧ rawSum cards + 10 ≤ 21
  · rw [if_pos hg]
    refine ⟨fun _ => ⟨?_, ⟨1, hg.1, ?_⟩, fun k hk hle => ?_⟩,
      fun hne => absurd ⟨1, hg.1, by omega⟩ hne,
      ⟨fun _ => ⟨hg.1, ?_⟩, fun _ => rfl⟩,
      fun h0 => absurd h0 (by omega)⟩
    · show rawSum cards + 10 ≤ 21
      omega
    · show rawSum cards + 10 = rawSum cards + 10 * 1
      omega
    · show rawSum cards + 10 * k ≤ rawSum cards + 10
      omega
    · show rawSum cards + 10 = rawSum cards + 10
      rfl
  · rw [if_neg hg]
    refine ⟨fun ⟨k, hk, hle⟩ => ⟨?_, ⟨0, by omega, ?_⟩,
        fun k2 hk2 hle2 => ?_⟩,
      fun _ => rfl, ⟨fun hfalse => absurd hfalse Bool.false_ne_true,
        fun hand => ?_⟩,
      fun h0 => ⟨rfl, rfl⟩⟩
    · show rawSum cards ≤ 21
      omega
    · show rawSum cards = rawSum cards + 10 * 0
      omega
    · show rawSum cards + 10 * k2 ≤ rawSum cards
      omega
    · exact absurd (hand.2 : rawSum cards = rawSum cards + 10) (by omega)

/-- Witness for the C5 theorem at the soft hand A,6: an assignment
keeping the total at 21 or lower exists, so the result is at most 21. -/
theorem hand_value_best_assignment_witness :
    (hand_value [Rank.rA, Rank.r6]).1 ≤ 21 :=
  ((hand_value_best_assignment [Rank.rA, Rank.r6]).1
    ⟨1, by decide, by decide⟩).1

/-- The original C6 claim is false on the code: the dealer stands on
(and returns) soft 18 — the hand A,7 is returned untouched under H17
with total 18 in [17, 21] and the soft flag set. -/
theorem dealer_play_returns_soft_18 :
    (dealer_play (fun _ => Rank.r2) 0 [Rank.rA, Rank.r7] true).1 =
        [Rank.rA, Rank.r7] ∧
      (hand_value [Rank.rA, Rank.r7]).2 = true ∧
      17 ≤ (hand_value [Rank.rA, Rank.r7]).1 ∧
      (hand_value [Rank.rA, Rank.r7]).1 ≤ 21 := by decide

/-- **C6 (amended)** Under H17 the dealer never *stops on* a soft 17:
a returned hand that is soft never totals exactly 17. -/
theorem dealer_play_no_soft_17 (draws : Nat → Rank) (i : Nat)
    (cards : List Rank)
    (hsoft : (hand_value (dealer_play draws i cards true).1).2 = true) :
    (hand_value (dealer_play draws i cards true).1).1 ≠ 17 := by
  have hx := dealer_play_fuel_exit draws true 18 cards i (by omega)
  intro h17
  exact hx (Or.inr ⟨h17, hsoft, rfl⟩)

/-- Witness for the amended C6 theorem: from A,6 (soft 17) the dealer
draws a 2 and stands on soft 19, which is indeed not 17. -/
theorem dealer_play_no_soft_17_witness :
    (hand_value
      (dealer_play (fun _ => Rank.r2) 0 [Rank.rA, Rank.r6] true).1).1 ≠ 17 :=
  dealer_play_no_soft_17 (fun _ => Rank.r2) 0 [Rank.rA, Rank.r6] (by decide)

/-- **C3** The two blackjack short circuits.  With peek on, a
ten-or-Ace upcard and a dealer blackjack, the hand resolves at once:
a single push entry at 0 if the player also has blackjack, else a
single loss entry at the full base bet — and if the player alone has
blackjack the hand resolves at once as a single win entry paying 3:2
or 6:5 per configuration.  In all cases the draw cursor stays at 4
(only the four dealt cards were drawn) and the trace is empty (no
strategy decision and no dealer play happened). -/
theorem play_hand_once_blackjack_short_circuit (ru : Rules)
    (tr : Trackers) (draws : Nat → Rank) (fuel : Nat) :
    (ru.peek = true →
      (draws 2 = Rank.r10 ∨ draws 2 = Rank.rJ ∨ draws 2 = Rank.rQ ∨
        draws 2 = Rank.rK ∨ draws 2 = Rank.rA) →
      is_blackjack [draws 2, draws 3] = true →
      play_hand_once ru tr draws fuel =
        some (if is_blackjack [draws 0, draws 1] = true then
          ⟨[("push", 0)],
            { tr with
              outcome_blackjack_push := tr.outcome_blackjack_push + 1,
              outcome_push := tr.outcome_push + 1 }, 4, []⟩
        else
          ⟨[("loss", -1)],
            { tr with
              outcome_loss := tr.outcome_loss + 1,
              outcome_dealer_blackjack :=
                tr.outcome_dealer_blackjack + 1 }, 4, []⟩)) ∧
    (is_blackjack [draws 0, draws 1] = true →
      is_blackjack [draws 2, draws 3] = false →
      play_hand_once ru tr draws fuel =
        some ⟨[("win", if ru.blackjack_3to2 = true then 3 / 2 else 6 / 5)],
          { tr with
            outcome_blackjack_win := tr.outcome_blackjack_win + 1,
            outcome_win := tr.outcome_win + 1 }, 4, []⟩) := by
  constructor
  · intro hp hup hbj
    simp only [play_hand_once, List.getD_cons_zero]
    rw [if_pos ⟨hp, hup, hbj⟩]
    split <;> rfl
  · intro hpbj hdbj
    simp only [play_hand_once, List.getD_cons_zero]
    rw [if_neg (by simp [hdbj]), if_pos hpbj]

/-- Draw script: player 5,5 against a dealt dealer blackjack A,K. -/
def scriptC3w : Nat → Rank := fun n =>
  [Rank.r5, Rank.r5, Rank.rA, Rank.rK].getD n Rank.r2

/-- Witness for the C3 theorem at the concrete deal `scriptC3w`: the
peeked dealer blackjack against a non-blackjack player resolves
immediately as the single loss entry. -/
theorem play_hand_once_blackjack_short_circuit_witness :
    play_hand_once defaultRules trackers0 scriptC3w 1 =
      some (if is_blackjack [scriptC3w 0, scriptC3w 1] = true then
        ⟨[("push", 0)],
          { trackers0 with
            outcome_blackjack_push := trackers0.outcome_blackjack_push + 1,
            outcome_push := trackers0.outcome_push + 1 }, 4, []⟩
      else
        ⟨[("loss", -1)],
          { trackers0 with
            outcome_loss := trackers0.outcome_loss + 1,
            outcome_dealer_blackjack :=
              trackers0.outcome_dealer_blackjack + 1 }, 4, []⟩) :=
  (play_hand_once_blackjack_short_circuit defaultRules trackers0
    scriptC3w 1).1 (by decide) (by decide) (by decide)

/-- The post-loop code either records exactly one dealer call in the
trace (comparison reached) or leaves the trace alone (busted hand). -/
theorem afterHand_trace_cases (ru : Rules) (dealer : List Rank)
    (draws : Nat → Rank) (cards : List Rank) (bet : ℚ)
    (rest : List PendingHand) (outs : List (String × ℚ)) (tr : Trackers)
    (i : Nat) (trace : List Event) :
    (afterHand ru dealer draws cards bet rest outs tr i trace).trace =
        trace ++ [Event.dealerCall dealer] ∨
      (afterHand ru dealer draws cards bet rest outs tr i trace).trace =
        trace := by
  simp only [afterHand]
  repeat' split
  all_goals first | (left; rfl) | (right; rfl)

/-- Every dealer call recorded while resolving one pending hand
starts from the engine's (unchanged) dealt dealer hand. -/
theorem innerLoop_dealerCalls (ru : Rules) (dealer_up : Rank)
    (dealer : List Rank) (draws : Nat → Rank) :
    ∀ (fuel : Nat) (cards : List Rank) (bet : ℚ) (splits_done : Nat)
      (can_double : Bool) (rest : List PendingHand)
      (outs : List (String × ℚ)) (tr : Trackers) (i : Nat)
      (trace : List Event) (s : StackState),
      innerLoop ru dealer_up dealer draws fuel cards bet splits_done
        can_double rest outs tr i trace = some s →
      ∀ h, Event.dealerCall h ∈ s.trace →
        Event.dealerCall h ∈ trace ∨ h = dealer := by
  intro fuel
  induction fuel with
  | zero =>
    intro cards bet splits_done can_double rest outs tr i trace s hsome
    simp [innerLoop] at hsome
  | succ f ih =>
    intro cards bet splits_done can_double rest outs tr i trace s hsome
      h hmem
    simp only [innerLoop] at hsome
    split at hsome
    · rw [Option.some_inj] at hsome
      subst hsome
      simp only [List.mem_append, List.mem_singleton] at hmem
      rcases hmem with hmem | hmem
      · exact Or.inl hmem
      · exact absurd hmem (by simp)
    · split at hsome
      · rcases ih _ _ _ _ _ _ _ _ _ _ hsome h hmem with hm | hm
        · simp only [List.mem_append, List.mem_singleton] at hm
          rcases hm with hm | hm
          · exact Or.inl hm
          · exact absurd hm (by simp)
        · exact Or.inr hm
      · split at hsome
        · rw [Option.some_inj] at hsome
          subst hsome
          rcases afterHand_trace_cases ru dealer draws (cards ++ [draws i])
            (bet * 2) rest outs
            { tr with counters_doubles := tr.counters_doubles + 1 }
            (i + 1) _ with hc | hc
          · rw [hc] at hmem
            simp only [List.mem_append, List.mem_singleton] at hmem
            rcases hmem with (hmem | hmem) | hmem
            · exact Or.inl hmem
            · exact absurd hmem (by simp)
            · exact Or.inr (by injection hmem)
          · rw [hc] at hmem
            simp only [List.mem_append, List.mem_singleton] at hmem
            rcases hmem with hmem | hmem
            · exact Or.inl hmem
            · exact absurd hmem (by simp)
        · split at hsome
          · split at hsome
            · rw [Option.some_inj] at hsome
              subst hsome
              rcases afterHand_trace_cases ru dealer draws
                (cards ++ [draws i]) bet rest (outs ++ [("loss", -bet)])
                { tr with
                  outcome_loss := tr.outcome_loss + 1,
                  counters_player_bust := tr.counters_player_bust + 1 }
                (i + 1) _ with hc | hc
              · rw [hc] at hmem
                simp only [List.mem_append, List.mem_singleton] at hmem
                rcases hmem with (hmem | hmem) | hmem
                · exact Or.inl hmem
                · exact absurd hmem (by simp)
                · exact Or.inr (by injection hmem)
              · rw [hc] at hmem
                simp only [List.mem_append, List.mem_singleton] at hmem
                rcases hmem with hmem | hmem
                · exact Or.inl hmem
                · exact absurd hmem (by simp)
            · rcases ih _ _ _ _ _ _ _ _ _ _ hsome h hmem with hm | hm
              · simp only [List.mem_append, List.mem_singleton] at hm
                rcases hm with hm | hm
                · exact Or.inl hm
                · exact absurd hm (by simp)
              · exact Or.inr hm
          · rw [Option.some_inj] at hsome
            subst hsome
            rcases afterHand_trace_cases ru dealer draws cards bet rest
              outs tr i _ with hc | hc
            · rw [hc] at hmem
              simp only [List.mem_append, List.mem_singleton] at hmem
              rcases hmem with (hmem | hmem) | hmem
              · exact Or.inl hmem
              · exact absurd hmem (by simp)
              · exact Or.inr (by injection hmem)
            · rw [hc] at hmem
              simp only [List.mem_append, List.mem_singleton] at hmem
              rcases hmem with hmem | hmem
              · exact Or.inl hmem
              · exact absurd hmem (by simp)

/-- Stack-level version of `innerLoop_dealerCalls`. -/
theorem resolveStack_dealerCalls (ru : Rules) (dealer_up : Rank)
    (dealer : List Rank) (draws : Nat → Rank) :
    ∀ (fuel : Nat) (stack : List PendingHand)
      (outs : List (String × ℚ)) (tr : Trackers) (i : Nat)
      (trace : List Event) (r : HandResult),
      resolveStack ru dealer_up dealer draws fuel stack outs tr i trace =
        some r →
      ∀ h, Event.dealerCall h ∈ r.trace →
        Event.dealerCall h ∈ trace ∨ h = dealer := by
  intro fuel
  induction fuel with
  | zero =>
    intro stack outs tr i trace r hsome
    simp [resolveStack] at hsome
  | succ f ih =>
    intro stack outs tr i trace r hsome h hmem
    match stack with
    | [] =>
      simp only [resolveStack, Option.some_inj] at hsome
      subst hsome
      exact Or.inl hmem
    | ph :: rest =>
      simp only [resolveStack] at hsome
      split at hsome
      · exact absurd hsome (by simp)
      · rename_i s hinner
        rcases ih _ _ _ _ _ _ hsome h hmem with hm | hm
        · exact innerLoop_dealerCalls ru dealer_up dealer draws _ _ _ _ _
            _ _ _ _ _ _ hinner h hm
        · exact Or.inr hm

/-- **C8** The dealt dealer hand is never mutated while resolving one
initial deal: the dealer's own play only appends draws to the hand it
is started from, and in a completed run every recorded dealer call
starts from exactly the two originally dealt dealer cards — the same
two-card hand for every subhand comparison, and, the engine state
being threaded immutably, the dealer hand still holds exactly those
two cards after every comparison and after `play_hand_once` returns. -/
theorem dealer_hand_immutable :
    (∀ (draws : Nat → Rank) (i : Nat) (cards : List Rank)
      (hit_soft_17 : Bool),
      ∃ t, (dealer_play draws i cards hit_soft_17).1 = cards ++ t) ∧
    (∀ (ru : Rules) (tr : Trackers) (draws : Nat → Rank) (fuel : Nat)
      (r : HandResult),
      play_hand_once ru tr draws fuel = some r →
      ∀ h, Event.dealerCall h ∈ r.trace →
        h = [draws 2, draws 3] ∧ h.length = 2) := by
  constructor
  · intro draws i cards hit_soft_17
    exact dealer_play_fuel_append draws hit_soft_17 18 cards i
  · intro ru tr draws fuel r hrun h hmem
    simp only [play_hand_once, List.getD_cons_zero] at hrun
    split at hrun
    · split at hrun <;>
      · rw [Option.some_inj] at hrun
        subst hrun
        simp at hmem
    · split at hrun
      · rw [Option.some_inj] at hrun
        subst hrun
        simp at hmem
      · rcases resolveStack_dealerCalls ru (draws 2) [draws 2, draws 3]
          draws fuel _ [] tr 4 [] r hrun h hmem with hm | hm
        · exact absurd hm (by simp)
        · exact ⟨hm, by rw [hm]; rfl⟩

/-- Draw script for the C8 witness: player 10,6 stands against dealer
2,10, which draws a 10 and busts. -/
def scriptC8w : Nat → Rank := fun n =>
  [Rank.r10, Rank.r6, Rank.r2, Rank.r10, Rank.r10].getD n Rank.r2

/-- Trackers after resolving `scriptC8w` under the default rules. -/
def trackersC8w : Trackers := ⟨1, 0, 0, 0, 0, 0, 1, 0, 0, 0, 0, 1, [16], [], 1⟩

/-- The full result of resolving `scriptC8w` under the default rules. -/
def resultC8w : HandResult :=
  ⟨[("win", 1)], trackersC8w, 5,
    [Event.dec [Rank.r10, Rank.r6] true 'S',
     Event.dealerCall [Rank.r2, Rank.r10]]⟩

/-- Witness for the C8 theorem: the one dealer call recorded while
resolving `scriptC8w` starts from the dealt dealer cards 2,10. -/
theorem dealer_hand_immutable_witness :
    ([Rank.r2, Rank.r10] : List Rank) = [scriptC8w 2, scriptC8w 3] ∧
      ([Rank.r2, Rank.r10] : List Rank).length = 2 :=
  dealer_hand_immutable.2 defaultRules trackers0 scriptC8w 40 resultC8w
    (by rfl) [Rank.r2, Rank.r10] (by decide)

/-- The post-loop code never touches the pending-hand stack. -/
theorem afterHand_stack (ru : Rules) (dealer : List Rank)
    (draws : Nat → Rank) (cards : List Rank) (bet : ℚ)
    (rest : List PendingHand) (outs : List (String × ℚ)) (tr : Trackers)
    (i : Nat) (trace : List Event) :
    (afterHand ru dealer draws cards bet rest outs tr i trace).stack =
      rest := by
  simp only [afterHand]
  repeat' split
  all_goals rfl

/-- Shape of every hand the engine doubles: exactly two cards, value
hard 9–11 or soft 13–18, and no single draw can push it past 21. -/
def doubledHandShape (cs : List Rank) : Prop :=
  cs.length = 2 ∧
  (((hand_value cs).2 = false ∧ 9 ≤ (hand_value cs).1 ∧
      (hand_value cs).1 ≤ 11) ∨
   ((hand_value cs).2 = true ∧ 13 ≤ (hand_value cs).1 ∧
      (hand_value cs).1 ≤ 18)) ∧
  (∀ c, (hand_value (cs ++ [c])).1 ≤ 21)

/-- Every strategy query answered with `'D'` recorded while resolving
one pending hand concerns a hand of `doubledHandShape`, provided the
loop starts with the engine's invariant: a doubleable current hand
has two cards and every stacked hand has two cards. -/
theorem innerLoop_decD (ru : Rules) (dealer_up : Rank)
    (dealer : List Rank) (draws : Nat → Rank) :
    ∀ (fuel : Nat) (cards : List Rank) (bet : ℚ) (splits_done : Nat)
      (can_double : Bool) (rest : List PendingHand)
      (outs : List (String × ℚ)) (tr : Trackers) (i : Nat)
      (trace : List Event) (s : StackState),
      innerLoop ru dealer_up dealer draws fuel cards bet splits_done
        can_double rest outs tr i trace = some s →
      (can_double = true → cards.length = 2) →
      (∀ ph ∈ rest, ph.cards.length = 2) →
      (∀ cs b, Event.dec cs b 'D' ∈ trace → doubledHandShape cs) →
      (∀ cs b, Event.dec cs b 'D' ∈ s.trace → doubledHandShape cs) ∧
      (∀ ph ∈ s.stack, ph.cards.length = 2) := by
  intro fuel
  induction fuel with
  | zero =>
    intro cards bet splits_done can_double rest outs tr i trace s hsome
    simp [innerLoop] at hsome
  | succ f ih =>
    intro cards bet splits_done can_double rest outs tr i trace s hsome
      hcd hrest htrace
    have htrace1 : ∀ cs b, Event.dec cs b 'D' ∈ trace ++
        [Event.dec cards can_double (basic_strategy cards dealer_up
          can_double (decide (cards.length = 2 ∧
            cards.getD 0 Rank.rA = cards.getD 1 Rank.rA ∧
            splits_done < ru.resplit_limit)) ru.late_surrender)] →
        doubledHandShape cs := by
      intro cs b hmem
      simp only [List.mem_append, List.mem_singleton] at hmem
      rcases hmem with hmem | hmem
      · exact htrace cs b hmem
      · rw [Event.dec.injEq] at hmem
        obtain ⟨rfl, rfl, hact⟩ := hmem
        have hD := hact.symm
        have hcd2 := (basic_strategy_D _ _ _ _ _ hD).1
        have hlen := hcd hcd2
        exact ⟨hlen, basic_strategy_D_two _ _ _ _ _ hD hlen,
          fun c => basic_strategy_D_no_bust _ _ _ _ _ hD c⟩
    simp only [innerLoop] at hsome
    split at hsome
    · rw [Option.some_inj] at hsome
      subst hsome
      exact ⟨htrace1, hrest⟩
    · split at hsome
      · refine ih _ _ _ _ _ _ _ _ _ _ hsome (fun _ => rfl) ?_ htrace1
        intro ph hph
        rcases List.mem_cons.1 hph with rfl | hph
        · rfl
        · exact hrest ph hph
      · split at hsome
        · rw [Option.some_inj] at hsome
          subst hsome
          refine ⟨?_, by rw [afterHand_stack]; exact hrest⟩
          intro cs b hmem
          rcases afterHand_trace_cases ru dealer draws (cards ++ [draws i])
            (bet * 2) rest outs
            { tr with counters_doubles := tr.counters_doubles + 1 }
            (i + 1) _ with hc | hc
          · rw [hc] at hmem
            simp only [List.mem_append, List.mem_singleton] at hmem
            rcases hmem with hmem | hmem
            · exact htrace1 cs b (by simpa using hmem)
            · exact absurd hmem (by simp)
          · rw [hc] at hmem
            exact htrace1 cs b hmem
        · split at hsome
          · split at hsome
            · rw [Option.some_inj] at hsome
              subst hsome
              refine ⟨?_, by rw [afterHand_stack]; exact hrest⟩
              intro cs b hmem
              rcases afterHand_trace_cases ru dealer draws
                (cards ++ [draws i]) bet rest (outs ++ [("loss", -bet)])
                { tr with
                  outcome_loss := tr.outcome_loss + 1,
                  counters_player_bust := tr.counters_player_bust + 1 }
                (i + 1) _ with hc | hc
              · rw [hc] at hmem
                simp only [List.mem_append, List.mem_singleton] at hmem
                rcases hmem with hmem | hmem
                · exact htrace1 cs b (by simpa using hmem)
                · exact absurd hmem (by simp)
              · rw [hc] at hmem
                exact htrace1 cs b hmem
            · exact ih _ _ _ _ _ _ _ _ _ _ hsome (fun hf => by simp at hf)
                hrest htrace1
          · rw [Option.some_inj] at hsome
            subst hsome
            refine ⟨?_, by rw [afterHand_stack]; exact hrest⟩
            intro cs b hmem
            rcases afterHand_trace_cases ru dealer draws cards bet rest
              outs tr i _ with hc | hc
            · rw [hc] at hmem
              simp only [List.mem_append, List.mem_singleton] at hmem
              rcases hmem with hmem | hmem
              · exact htrace1 cs b (by simpa using hmem)
              · exact absurd hmem (by simp)
            · rw [hc] at hmem
              exact htrace1 cs b hmem

/-- Stack-level version of `innerLoop_decD`. -/
theorem resolveStack_decD (ru : Rules) (dealer_up : Rank)
    (dealer : List Rank) (draws : Nat → Rank) :
    ∀ (fuel : Nat) (stack : List PendingHand)
      (outs : List (String × ℚ)) (tr : Trackers) (i : Nat)
      (trace : List Event) (r : HandResult),
      resolveStack ru dealer_up dealer draws fuel stack outs tr i trace =
        some r →
      (∀ ph ∈ stack, ph.cards.length = 2) →
      (∀ cs b, Event.dec cs b 'D' ∈ trace → doubledHandShape cs) →
      ∀ cs b, Event.dec cs b 'D' ∈ r.trace → doubledHandShape cs := by
  intro fuel
  induction fuel with
  | zero =>
    intro stack outs tr i trace r hsome
    simp [resolveStack] at hsome
  | succ f ih =>
    intro stack outs tr i trace r hsome hstack htrace
    match stack with
    | [] =>
      simp only [resolveStack, Option.some_inj] at hsome
      subst hsome
      exact htrace
    | ph :: rest =>
      simp only [resolveStack] at hsome
      split at hsome
      · exact absurd hsome (by simp)
      · rename_i s hinner
        have hph : ph.cards.length = 2 := hstack ph (List.mem_cons_self ph rest)
        have hrest : ∀ q ∈ rest, q.cards.length = 2 := fun q hq =>
          hstack q (List.mem_cons_of_mem ph hq)
        obtain ⟨ht, hp⟩ := innerLoop_decD ru dealer_up dealer draws
          (f + 1) ph.cards ph.bet ph.splits_done ph.can_double rest outs
          tr i trace s hinner (fun _ => hph) hrest htrace
        exact ih _ _ _ _ _ _ hsome hp ht

/-- **C10** Double actions are safe.  (1) The strategy answers `'D'`
only when doubling is legal, and then a single draw can never bust
the hand.  (2) On a two-card hand (which is the only kind the engine
ever doubles) the pre-draw value is hard 9, 10 or 11 — the pair of 5s
totalling hard 10 — or soft 13 through 18; in every completed run of
`play_hand_once`, every recorded `'D'` decision concerns such a hand.
(3) Whenever the decision loop takes the Double branch it always
appends an outcome entry (the post-loop bust check never skips the
dealer comparison for a doubled subhand). -/
theorem double_action_safe :
    (∀ (player : List Rank) (dealer_up : Rank)
      (can_double can_split_pair surrender_allowed : Bool),
      basic_strategy player dealer_up can_double can_split_pair
        surrender_allowed = 'D' →
      can_double = true ∧
        (∀ c, (hand_value (player ++ [c])).1 ≤ 21) ∧
        (player.length = 2 →
          ((hand_value player).2 = false ∧ 9 ≤ (hand_value player).1 ∧
            (hand_value player).1 ≤ 11) ∨
          ((hand_value player).2 = true ∧ 13 ≤ (hand_value player).1 ∧
            (hand_value player).1 ≤ 18))) ∧
    (∀ (ru : Rules) (tr : Trackers) (draws : Nat → Rank) (fuel : Nat)
      (r : HandResult),
      play_hand_once ru tr draws fuel = some r →
      ∀ cs b, Event.dec cs b 'D' ∈ r.trace → doubledHandShape cs) ∧
    (∀ (ru : Rules) (dealer_up : Rank) (dealer : List Rank)
      (draws : Nat → Rank) (fuel : Nat) (cards : List Rank) (bet : ℚ)
      (splits_done : Nat) (can_double : Bool) (rest : List PendingHand)
      (outs : List (String × ℚ)) (tr : Trackers) (i : Nat)
      (trace : List Event),
      basic_strategy cards dealer_up can_double
        (decide (cards.length = 2 ∧
          cards.getD 0 Rank.rA = cards.getD 1 Rank.rA ∧
          splits_done < ru.resplit_limit)) ru.late_surrender = 'D' →
      ∃ e tr2 i2 trace2,
        innerLoop ru dealer_up dealer draws (fuel + 1) cards bet
          splits_done can_double rest outs tr i trace =
          some ⟨rest, outs ++ [e], tr2, i2, trace2⟩) := by
  refine ⟨?_, ?_, ?_⟩
  · intro player dealer_up can_double can_split_pair surrender_allowed hD
    exact ⟨(basic_strategy_D _ _ _ _ _ hD).1,
      fun c => basic_strategy_D_no_bust _ _ _ _ _ hD c,
      fun hlen => basic_strategy_D_two _ _ _ _ _ hD hlen⟩
  · intro ru tr draws fuel r hrun cs b hmem
    simp only [play_hand_once, List.getD_cons_zero] at hrun
    split at hrun
    · split at hrun <;>
      · rw [Option.some_inj] at hrun
        subst hrun
        simp at hmem
    · split at hrun
      · rw [Option.some_inj] at hrun
        subst hrun
        simp at hmem
      · refine resolveStack_decD ru (draws 2) [draws 2, draws 3] draws
          fuel _ [] tr 4 [] r hrun ?_ (by simp) cs b hmem
        intro ph hph
        simp only [List.mem_singleton] at hph
        subst hph
        rfl
  · intro ru dealer_up dealer draws fuel cards bet splits_done can_double
      rest outs tr i trace hD
    have hcd := (basic_strategy_D _ _ _ _ _ hD).1
    subst hcd
    have hno : (hand_value (cards ++ [draws i])).1 ≤ 21 :=
      basic_strategy_D_no_bust _ _ _ _ _ hD (draws i)
    simp only [innerLoop]
    rw [if_neg (by rw [hD]; decide), if_neg (fun hc => by
      rw [hD] at hc; exact absurd hc.1 (by decide)),
      if_pos ⟨hD, by trivial⟩]
    obtain ⟨tr2, heq⟩ := afterHand_of_le ru dealer draws
      (cards ++ [draws i]) (bet * 2) rest outs
      { tr with counters_doubles := tr.counters_doubles + 1 }
      (i + 1) _ hno
    rw [heq]
    exact ⟨_, tr2, _, _, rfl⟩

theorem hardTotals_S (total upv : Nat) (can_double : Bool)
    (h : 17 ≤ total) : hardTotals total upv can_double = 'S' := by
  unfold hardTotals
  have h8 : ¬(total ≤ 8) := by omega
  have h9 : total ≠ 9 := by omega
  have h10 : total ≠ 10 := by omega
  have h11 : total ≠ 11 := by omega
  have h12 : total ≠ 12 := by omega
  have h16 : ¬(13 ≤ total ∧ total ≤ 16) := by omega
  rw [if_neg h8, if_neg h9, if_neg h10, if_neg h11, if_neg h12,
    if_neg h16]

theorem softHard_S (total : Nat) (soft : Bool) (upv : Nat)
    (can_double : Bool) (h : 17 ≤ total) (hs : soft = false) :
    softHard total soft upv can_double = 'S' := by
  unfold softHard
  rw [if_neg (fun hc => by rw [hs] at hc; exact absurd hc.1 (by decide)),
    if_neg (fun hc => by rw [hs] at hc; exact absurd hc.1 (by decide)),
    if_neg (fun hc => by rw [hs] at hc; exact absurd hc.1 (by decide)),
    if_neg (fun hc => by rw [hs] at hc; exact absurd hc.1 (by decide)),
    if_neg (fun hc => by rw [hs] at hc; exact absurd hc.1 (by decide))]
  exact hardTotals_S total upv can_double h

/-- **C7** Totality of the strategy: every query returns one of the
five action codes; a hand that falls through the soft and pair tables
is still decided (soft 12 with splitting unavailable is decided by
the hard-12 row); and Stand is the final default for every hard total
of 17 or more that is not a splittable pair. -/
theorem basic_strategy_total :
    (∀ (player : List Rank) (dealer_up : Rank)
      (can_double can_split_pair surrender_allowed : Bool),
      basic_strategy player dealer_up can_double can_split_pair
          surrender_allowed = 'H' ∨
        basic_strategy player dealer_up can_double can_split_pair
          surrender_allowed = 'S' ∨
        basic_strategy player dealer_up can_double can_split_pair
          surrender_allowed = 'D' ∨
        basic_strategy player dealer_up can_double can_split_pair
          surrender_allowed = 'P' ∨
        basic_strategy player dealer_up can_double can_split_pair
          surrender_allowed = 'R') ∧
    (∀ (player : List Rank) (dealer_up : Rank)
      (can_double can_split_pair surrender_allowed : Bool),
      (hand_value player).2 = false → 17 ≤ (hand_value player).1 →
      ¬(can_split_pair = true ∧ player.length = 2 ∧
        player.getD 0 Rank.rA = player.getD 1 Rank.rA) →
      basic_strategy player dealer_up can_double can_split_pair
        surrender_allowed = 'S') ∧
    (∀ (dealer_up : Rank) (can_double surrender_allowed : Bool),
      basic_strategy [Rank.rA, Rank.rA] dealer_up can_double false
          surrender_allowed =
        (if upValue dealer_up = 4 ∨ upValue dealer_up = 5 ∨
          upValue dealer_up = 6 then 'S' else 'H')) := by
  refine ⟨?_, ?_, ?_⟩
  · intro player dealer_up can_double can_split_pair surrender_allowed
    exact basic_strategy_mem player dealer_up can_double can_split_pair
      surrender_allowed
  · intro player dealer_up can_double can_split_pair surrender_allowed
      hs h17 hnp
    unfold basic_strategy
    rw [if_neg (fun hc => absurd hc.2.2.2.1 (by omega)),
      if_neg (fun hc => absurd hc.2.2.2.1 (by omega)), if_neg hnp]
    exact softHard_S _ _ _ _ h17 hs
  · intro dealer_up can_double surrender_allowed
    cases dealer_up <;> cases can_double <;> cases surrender_allowed <;>
      decide

/-- Witness for the C7 theorem: hard 19 (K,9) against a 5 upcard with
no splittable pair stands. -/
theorem basic_strategy_total_witness :
    basic_strategy [Rank.rK, Rank.r9] Rank.r5 true false true = 'S' :=
  basic_strategy_total.2.1 [Rank.rK, Rank.r9] Rank.r5 true false true
    (by decide) (by decide) (by decide)

/-- Witness for the C10 theorem: doubling hard 11 (5,6 against a 6)
then drawing a king lands on exactly 21, not past it. -/
theorem double_action_safe_witness :
    (hand_value ([Rank.r5, Rank.r6] ++ [Rank.rK])).1 ≤ 21 :=
  (double_action_safe.1 [Rank.r5, Rank.r6] Rank.r6 true false true
    (by decide)).2.1 Rank.rK
